import Mathlib

/-!
# Verification of the span-annotation core (`src/submission-random/run.py`)

The only non-trivial logic of the program is `Evaluator.predict`:

* it scans the document with `re.compile(r"\w+", re.UNICODE).finditer(text)`,
  obtaining the `(start, end)` spans of the maximal contiguous runs of word
  characters, left to right;
* for each span it draws `choice(["Q", "A", "O"])` and yields
  `(start, end, category)` exactly when the draw is `"Q"` or `"A"`.

We embed the scan as a structural left-to-right pass over the document
(`scanAux` / `tokenize`), parameterised by the word-character classification
`w : Char → Bool` (the character class behind `\w`); `isWordChar` is its
ASCII instantiation, which agrees with Python's `\w` on ASCII documents.
The process-wide pseudo-random source is made explicit as a stream
`draws : Nat → Category`: the `idx`-th call of `choice` — one per token,
whether or not the token is emitted — returns `draws idx`.
-/

namespace HarmonyParsing

/-- The three-element category set the classifier draws from:
`choice(["Q", "A", "O"])` in the source. -/
inductive Category where
  | Q
  | A
  | O
  deriving DecidableEq, Repr

/-- Position `j` of document `l` holds a word character, per the
word-character classification `w`.  Out-of-range positions are never word
positions. -/
def wordAt (w : Char → Bool) (l : List Char) (j : Nat) : Bool :=
  decide (j < l.length) && w (l.getD j '*')

/-- One left-to-right scan of the document, the shallow embedding of
`finditer` for the regex `\w+`: `i` is the current position, and
`cur = some s` records that a run of word characters began at `s` and is
still open.  It emits the half-open `(start, end)` span of every maximal
run of `w`-characters, in order. -/
def scanAux (w : Char → Bool) : Nat → Option Nat → List Char → List (Nat × Nat)
  | _, none, [] => []
  | i, some s, [] => [(s, i)]
  | i, none, c :: cs =>
    if w c then scanAux w (i + 1) (some i) cs else scanAux w (i + 1) none cs
  | i, some s, c :: cs =>
    if w c then scanAux w (i + 1) (some s) cs
    else (s, i) :: scanAux w (i + 1) none cs

/-- The Tokenizer: the `(start, end)` spans found by the regex scan for
`\w+` over `text`, scanning from position `0`. -/
def tokenize (w : Char → Bool) (text : List Char) : List (Nat × Nat) :=
  scanAux w 0 none text

/-- The classification loop of `Evaluator.predict`: token number `idx`
(0-based) consumes draw `draws idx` — exactly one draw per token, whether
emitted or not — and the span is yielded, carrying the drawn category,
iff the draw is `Q` or `A`. -/
def classifySpans (draws : Nat → Category) :
    Nat → List (Nat × Nat) → List (Nat × Nat × Category)
  | _, [] => []
  | idx, (a, b) :: rest =>
    let c := draws idx
    if c = Category.Q ∨ c = Category.A then
      (a, b, c) :: classifySpans draws (idx + 1) rest
    else
      classifySpans draws (idx + 1) rest

/-- Shallow embedding of `Evaluator.predict`, with the pseudo-random
source explicit as the stream `draws`. -/
def predict (w : Char → Bool) (draws : Nat → Category) (text : List Char) :
    List (Nat × Nat × Category) :=
  classifySpans draws 0 (tokenize w text)

/-- The Python `\w` character class restricted to ASCII text: letters,
digits and underscore. -/
def isWordChar (c : Char) : Bool :=
  c.isAlphanum || c == '_'

/-- Declarative specification, following the wording of the spec, of a
maximal contiguous run of word characters: the half-open interval `[s, e)` is
nonempty, lies inside the document, consists of word characters only, and
can be extended on neither side. -/
def maximalRunB (w : Char → Bool) (l : List Char) (s e : Nat) : Bool :=
  decide (s < e) && decide (e ≤ l.length) &&
    (List.range' s (e - s)).all (fun j => wordAt w l j) &&
    (decide (s = 0) || !wordAt w l (s - 1)) && !wordAt w l e

/-- The contribution of the `i`-th token span to the prediction stream:
`none` when there is no `i`-th span or its draw is `O`.  By construction
it reads the draw stream only at index `i`. -/
def outcome (draws : Nat → Category) (spans : List (Nat × Nat)) (i : Nat) :
    Option (Nat × Nat × Category) :=
  match spans[i]? with
  | none => none
  | some (a, b) =>
    let c := draws i
    if c = Category.Q ∨ c = Category.A then some (a, b, c) else none

/-- The document of the concrete scenario in the spec. -/
def sampleDoc : List Char :=
  ("Is sky blue? Yes.").toList

/-- A fixed realisation of the random source: token 1 (index 0) draws
Question, token 3 (index 2) draws Answer, every other token draws
Other. -/
def sampleDraws : Nat → Category
  | 0 => Category.Q
  | 2 => Category.A
  | _ => Category.O

/-! ## Basic facts about `wordAt` -/

theorem wordAt_nil (w : Char → Bool) (j : Nat) : wordAt w [] j = false := by
  simp [wordAt]

theorem wordAt_cons_zero (w : Char → Bool) (c : Char) (cs : List Char) :
    wordAt w (c :: cs) 0 = w c := by
  simp [wordAt]

theorem wordAt_cons_succ (w : Char → Bool) (c : Char) (cs : List Char) (j : Nat) :
    wordAt w (c :: cs) (j + 1) = wordAt w cs j := by
  simp [wordAt, Nat.succ_lt_succ_iff]

theorem wordAt_of_le (w : Char → Bool) (l : List Char) (j : Nat)
    (h : l.length ≤ j) : wordAt w l j = false := by
  simp [wordAt, Nat.not_lt.mpr h]

/-- The all-word-characters conjunct of `maximalRunB`, unfolded to a
bounded quantifier. -/
theorem allRange_iff (f : Nat → Bool) (s e : Nat) :
    (List.range' s (e - s)).all f = true ↔ ∀ j, s ≤ j → j < e → f j = true := by
  rw [List.all_eq_true]
  constructor
  · intro h j hsj hje
    exact h j (List.mem_range'.mpr ⟨j - s, by omega, by omega⟩)
  · intro h j hj
    rcases List.mem_range'.mp hj with ⟨k, hk, rfl⟩
    exact h _ (by omega) (by omega)

/-- Propositional characterisation of `maximalRunB`. -/
theorem maximalRun_iff (w : Char → Bool) (l : List Char) (s e : Nat) :
    maximalRunB w l s e = true ↔
      s < e ∧ e ≤ l.length ∧
        (∀ j, s ≤ j → j < e → wordAt w l j = true) ∧
        (s = 0 ∨ wordAt w l (s - 1) = false) ∧
        wordAt w l e = false := by
  simp only [maximalRunB, Bool.and_eq_true, Bool.or_eq_true, decide_eq_true_eq,
    Bool.not_eq_true', allRange_iff]
  tauto

/-! ## Facts about `List.takeWhile` and `List.dropWhile` -/

theorem length_takeWhile_add_dropWhile (w : Char → Bool) (l : List Char) :
    (l.takeWhile w).length + (l.dropWhile w).length = l.length := by
  conv_rhs => rw [← List.takeWhile_append_dropWhile (p := w) (l := l)]
  exact (List.length_append _ _).symm

theorem wordAt_takeWhile (w : Char → Bool) (l : List Char) (j : Nat)
    (h : j < (l.takeWhile w).length) : wordAt w l j = true := by
  induction l generalizing j with
  | nil => simp at h
  | cons c cs ih =>
    by_cases hc : w c
    · cases j with
      | zero => simpa [wordAt_cons_zero] using hc
      | succ j =>
        rw [wordAt_cons_succ]
        apply ih
        rw [List.takeWhile_cons_of_pos hc, List.length_cons] at h
        omega
    · rw [List.takeWhile_cons_of_neg hc] at h
      simp at h

theorem wordAt_at_takeWhile_length (w : Char → Bool) (l : List Char) :
    wordAt w l (l.takeWhile w).length = false := by
  induction l with
  | nil => simp [wordAt_nil]
  | cons c cs ih =>
    by_cases hc : w c
    · rw [List.takeWhile_cons_of_pos hc, List.length_cons, wordAt_cons_succ]
      exact ih
    · rw [List.takeWhile_cons_of_neg hc, List.length_nil, wordAt_cons_zero]
      simpa using hc

theorem wordAt_dropWhile (w : Char → Bool) (l : List Char) (j : Nat) :
    wordAt w l ((l.takeWhile w).length + j) = wordAt w (l.dropWhile w) j := by
  induction l with
  | nil => simp
  | cons c cs ih =>
    by_cases hc : w c
    · rw [List.takeWhile_cons_of_pos hc, List.dropWhile_cons_of_pos hc,
        List.length_cons]
      have he : (cs.takeWhile w).length + 1 + j = ((cs.takeWhile w).length + j) + 1 := by
        omega
      rw [he, wordAt_cons_succ]
      exact ih
    · rw [List.takeWhile_cons_of_neg hc, List.dropWhile_cons_of_neg hc]
      simp

theorem wordAt_dropWhile_zero (w : Char → Bool) (l : List Char) :
    wordAt w (l.dropWhile w) 0 = false := by
  induction l with
  | nil => simp [wordAt_nil]
  | cons c cs ih =>
    by_cases hc : w c
    · rw [List.dropWhile_cons_of_pos hc]; exact ih
    · rw [List.dropWhile_cons_of_neg hc, wordAt_cons_zero]
      simpa using hc

/-! ## Unfolding equations for the scan -/

theorem scanAux_none_nil (w : Char → Bool) (i : Nat) :
    scanAux w i none [] = [] := by
  simp [scanAux]

theorem scanAux_some_nil (w : Char → Bool) (i s : Nat) :
    scanAux w i (some s) [] = [(s, i)] := by
  simp [scanAux]

theorem scanAux_none_cons_pos (w : Char → Bool) (i : Nat) (c : Char)
    (cs : List Char) (hc : w c = true) :
    scanAux w i none (c :: cs) = scanAux w (i + 1) (some i) cs := by
  simp [scanAux, hc]

theorem scanAux_none_cons_neg (w : Char → Bool) (i : Nat) (c : Char)
    (cs : List Char) (hc : w c = false) :
    scanAux w i none (c :: cs) = scanAux w (i + 1) none cs := by
  simp [scanAux, hc]

theorem scanAux_some_cons_pos (w : Char → Bool) (i s : Nat) (c : Char)
    (cs : List Char) (hc : w c = true) :
    scanAux w i (some s) (c :: cs) = scanAux w (i + 1) (some s) cs := by
  simp [scanAux, hc]

theorem scanAux_some_cons_neg (w : Char → Bool) (i s : Nat) (c : Char)
    (cs : List Char) (hc : w c = false) :
    scanAux w i (some s) (c :: cs) = (s, i) :: scanAux w (i + 1) none cs := by
  simp [scanAux, hc]

/-- An open run closes exactly at the end of the word-character prefix of
the remaining input. -/
theorem scanAux_some_eq (w : Char → Bool) (l : List Char) :
    ∀ i s, scanAux w i (some s) l =
      (s, i + (l.takeWhile w).length) ::
        scanAux w (i + (l.takeWhile w).length) none (l.dropWhile w) := by
  induction l with
  | nil =>
    intro i s
    simp [scanAux_some_nil, scanAux_none_nil]
  | cons c cs ih =>
    intro i s
    by_cases hc : w c
    · rw [List.takeWhile_cons_of_pos hc, List.dropWhile_cons_of_pos hc,
        List.length_cons, scanAux_some_cons_pos w i s c cs hc]
      have he : i + ((cs.takeWhile w).length + 1) = (i + 1) + (cs.takeWhile w).length := by
        omega
      rw [he]
      exact ih (i + 1) s
    · have hc' : w c = false := by simpa using hc
      rw [List.takeWhile_cons_of_neg hc, List.dropWhile_cons_of_neg hc,
        scanAux_some_cons_neg w i s c cs hc']
      simp [scanAux_none_cons_neg w i c cs hc']

/-- Scanning from a word character emits the span of the maximal
word-character prefix and continues after it. -/
theorem scanAux_none_word (w : Char → Bool) (i : Nat) (c : Char)
    (cs : List Char) (hc : w c = true) :
    scanAux w i none (c :: cs) =
      (i, i + ((c :: cs).takeWhile w).length) ::
        scanAux w (i + ((c :: cs).takeWhile w).length) none
          ((c :: cs).dropWhile w) := by
  rw [scanAux_none_cons_pos w i c cs hc, scanAux_some_eq,
    List.takeWhile_cons_of_pos hc, List.dropWhile_cons_of_pos hc,
    List.length_cons]
  have he : (i + 1) + (cs.takeWhile w).length = i + ((cs.takeWhile w).length + 1) := by
    omega
  rw [he]

/-! ## Structural invariants of the scan -/

/-- Every span produced by the scan is nonempty, starts at or after the
position the scan (or its open run) started at, and ends within the
input. -/
theorem scanAux_bounds (w : Char → Bool) (l : List Char) :
    ∀ i cur, (∀ s, cur = some s → s < i) →
      ∀ p ∈ scanAux w i cur l,
        cur.getD i ≤ p.1 ∧ p.1 < p.2 ∧ p.2 ≤ i + l.length := by
  induction l with
  | nil =>
    intro i cur hcur p hp
    match cur with
    | none => simp [scanAux_none_nil] at hp
    | some s =>
      have hsi := hcur s rfl
      rw [scanAux_some_nil] at hp
      simp at hp
      subst hp
      simp
      omega
  | cons c cs ih =>
    intro i cur hcur p hp
    match cur with
    | none =>
      by_cases hc : w c
      · rw [scanAux_none_cons_pos w i c cs hc] at hp
        have h := ih (i + 1) (some i) (by intro s hs; cases hs; omega) p hp
        simp at h ⊢
        omega
      · have hc' : w c = false := by simpa using hc
        rw [scanAux_none_cons_neg w i c cs hc'] at hp
        have h := ih (i + 1) none (by intro s hs; cases hs) p hp
        simp at h ⊢
        omega
    | some s =>
      have hsi := hcur s rfl
      by_cases hc : w c
      · rw [scanAux_some_cons_pos w i s c cs hc] at hp
        have h := ih (i + 1) (some s) (by intro t ht; cases ht; omega) p hp
        simp at h ⊢
        omega
      · have hc' : w c = false := by simpa using hc
        rw [scanAux_some_cons_neg w i s c cs hc'] at hp
        simp at hp
        rcases hp with hp | hp
        · subst hp
          simp
          omega
        · have h := ih (i + 1) none (by intro t ht; cases ht) p hp
          simp at h ⊢
          omega

/-- The spans produced by the scan are in order and pairwise
non-overlapping. -/
theorem scanAux_pairwise (w : Char → Bool) (l : List Char) :
    ∀ i cur, (∀ s, cur = some s → s < i) →
      List.Pairwise (fun p q : Nat × Nat => p.2 ≤ q.1) (scanAux w i cur l) := by
  induction l with
  | nil =>
    intro i cur hcur
    match cur with
    | none => rw [scanAux_none_nil]; exact List.Pairwise.nil
    | some s => rw [scanAux_some_nil]; simp
  | cons c cs ih =>
    intro i cur hcur
    match cur with
    | none =>
      by_cases hc : w c
      · rw [scanAux_none_cons_pos w i c cs hc]
        exact ih (i + 1) (some i) (by intro s hs; cases hs; omega)
      · have hc' : w c = false := by simpa using hc
        rw [scanAux_none_cons_neg w i c cs hc']
        exact ih (i + 1) none (by intro s hs; cases hs)
    | some s =>
      have hsi := hcur s rfl
      by_cases hc : w c
      · rw [scanAux_some_cons_pos w i s c cs hc]
        exact ih (i + 1) (some s) (by intro t ht; cases ht; omega)
      · have hc' : w c = false := by simpa using hc
        rw [scanAux_some_cons_neg w i s c cs hc']
        refine List.Pairwise.cons ?_ (ih (i + 1) none (by intro t ht; cases ht))
        intro q hq
        have h := scanAux_bounds w cs (i + 1) none (by intro t ht; cases ht) q hq
        simp at h ⊢
        omega

/-- The scan produces at most one span per input character (plus the open
run, if any). -/
theorem scanAux_length (w : Char → Bool) (l : List Char) :
    ∀ i cur, (scanAux w i cur l).length ≤
      l.length + (if cur.isSome then 1 else 0) := by
  induction l with
  | nil =>
    intro i cur
    match cur with
    | none => simp [scanAux_none_nil]
    | some s => simp [scanAux_some_nil]
  | cons c cs ih =>
    intro i cur
    match cur with
    | none =>
      by_cases hc : w c
      · rw [scanAux_none_cons_pos w i c cs hc]
        have h := ih (i + 1) (some i)
        simp at h ⊢
        omega
      · have hc' : w c = false := by simpa using hc
        rw [scanAux_none_cons_neg w i c cs hc']
        have h := ih (i + 1) none
        simp at h ⊢
        omega
    | some s =>
      by_cases hc : w c
      · rw [scanAux_some_cons_pos w i s c cs hc]
        have h := ih (i + 1) (some s)
        simp at h ⊢
        omega
      · have hc' : w c = false := by simpa using hc
        rw [scanAux_some_cons_neg w i s c cs hc']
        have h := ih (i + 1) none
        simp at h ⊢
        omega

/-- A document with no word characters produces no spans. -/
theorem scanAux_all_neg (w : Char → Bool) (l : List Char)
    (hall : ∀ c ∈ l, w c = false) : ∀ i, scanAux w i none l = [] := by
  induction l with
  | nil => intro i; exact scanAux_none_nil w i
  | cons c cs ih =>
    intro i
    have hc : w c = false := hall c (by simp)
    rw [scanAux_none_cons_neg w i c cs hc]
    exact ih (fun d hd => hall d (by simp [hd])) (i + 1)

/-! ## Algebra of maximal runs -/

theorem maximalRunB_nil (w : Char → Bool) (s e : Nat) :
    maximalRunB w [] s e = false := by
  rw [Bool.eq_false_iff]
  intro h
  rcases (maximalRun_iff w [] s e).mp h with ⟨h1, h2, _⟩
  simp at h2
  omega

/-- Maximal runs of a document whose head is a non-word character are
exactly the maximal runs of its tail, shifted by one. -/
theorem run_cons_neg (w : Char → Bool) (c : Char) (cs : List Char)
    (s e : Nat) (hc : w c = false) :
    maximalRunB w (c :: cs) s e = true ↔
      ∃ t f, s = t + 1 ∧ e = f + 1 ∧ maximalRunB w cs t f = true := by
  constructor
  · intro h
    rcases (maximalRun_iff w (c :: cs) s e).mp h with ⟨hse, hel, hall, hleft, hright⟩
    have hs0 : s ≠ 0 := by
      intro h0
      subst h0
      have hw := hall 0 (le_refl 0) hse
      rw [wordAt_cons_zero, hc] at hw
      exact Bool.false_ne_true hw
    obtain ⟨t, rfl⟩ : ∃ t, s = t + 1 := ⟨s - 1, by omega⟩
    obtain ⟨f, rfl⟩ : ∃ f, e = f + 1 := ⟨e - 1, by omega⟩
    refine ⟨t, f, rfl, rfl, (maximalRun_iff w cs t f).mpr ⟨by omega, ?_, ?_, ?_, ?_⟩⟩
    · simp at hel
      omega
    · intro j hj1 hj2
      have hw := hall (j + 1) (by omega) (by omega)
      rwa [wordAt_cons_succ] at hw
    · rcases Nat.eq_zero_or_pos t with h0 | hpos
      · exact Or.inl h0
      · right
        rcases hleft with h0 | hws
        · omega
        · rw [Nat.add_sub_cancel] at hws
          have ht : t = (t - 1) + 1 := by omega
          rw [ht, wordAt_cons_succ] at hws
          exact hws
    · rwa [wordAt_cons_succ] at hright
  · rintro ⟨t, f, rfl, rfl, hrun⟩
    rcases (maximalRun_iff w cs t f).mp hrun with ⟨hse, hel, hall, hleft, hright⟩
    refine (maximalRun_iff w (c :: cs) (t + 1) (f + 1)).mpr
      ⟨by omega, by simp; omega, ?_, ?_, ?_⟩
    · intro j hj1 hj2
      obtain ⟨j', rfl⟩ : ∃ j', j = j' + 1 := ⟨j - 1, by omega⟩
      rw [wordAt_cons_succ]
      exact hall j' (by omega) (by omega)
    · right
      rw [Nat.add_sub_cancel]
      rcases Nat.eq_zero_or_pos t with h0 | hpos
      · subst h0
        rw [wordAt_cons_zero]
        exact hc
      · obtain ⟨u, rfl⟩ : ∃ u, t = u + 1 := ⟨t - 1, by omega⟩
        rw [wordAt_cons_succ]
        rcases hleft with h0 | hws
        · omega
        · rwa [Nat.add_sub_cancel] at hws
    · rw [wordAt_cons_succ]
      exact hright

/-- The word-character prefix of a document, when nonempty, is itself a
maximal run. -/
theorem run_zero_takeWhile (w : Char → Bool) (l : List Char)
    (hk : 0 < (l.takeWhile w).length) :
    maximalRunB w l 0 (l.takeWhile w).length = true := by
  rw [maximalRun_iff]
  refine ⟨hk, ?_, ?_, Or.inl rfl, wordAt_at_takeWhile_length w l⟩
  · have := length_takeWhile_add_dropWhile w l
    omega
  · intro j hj1 hj2
    exact wordAt_takeWhile w l j hj2

/-- Every maximal run is either the word-character prefix itself or a
maximal run of the rest of the document after that prefix. -/
theorem run_split (w : Char → Bool) (l : List Char) (s e : Nat)
    (h : maximalRunB w l s e = true) :
    (s = 0 ∧ e = (l.takeWhile w).length) ∨
      ∃ t f, s = (l.takeWhile w).length + t ∧ e = (l.takeWhile w).length + f ∧
        maximalRunB w (l.dropWhile w) t f = true := by
  rcases (maximalRun_iff w l s e).mp h with ⟨hse, hel, hall, hleft, hright⟩
  have hlen := length_takeWhile_add_dropWhile w l
  by_cases hsk : s < (l.takeWhile w).length
  · left
    have hs0 : s = 0 := by
      by_contra hs0
      rcases hleft with h0 | hws
      · exact hs0 h0
      · have hw : wordAt w l (s - 1) = true := wordAt_takeWhile w l (s - 1) (by omega)
        rw [hws] at hw
        exact Bool.false_ne_true hw
    subst hs0
    refine ⟨rfl, ?_⟩
    rcases Nat.lt_trichotomy e (l.takeWhile w).length with hlt | heq | hgt
    · have hw : wordAt w l e = true := wordAt_takeWhile w l e hlt
      rw [hright] at hw
      exact absurd hw (Bool.false_ne_true)
    · exact heq
    · have hw : wordAt w l (l.takeWhile w).length = true :=
        hall (l.takeWhile w).length (by omega) hgt
      rw [wordAt_at_takeWhile_length w l] at hw
      exact absurd hw (Bool.false_ne_true)
  · right
    refine ⟨s - (l.takeWhile w).length, e - (l.takeWhile w).length,
      by omega, by omega, ?_⟩
    rw [maximalRun_iff]
    refine ⟨by omega, by omega, ?_, ?_, ?_⟩
    · intro j hj1 hj2
      have hw := hall ((l.takeWhile w).length + j) (by omega) (by omega)
      rwa [wordAt_dropWhile w l j] at hw
    · rcases Nat.eq_zero_or_pos (s - (l.takeWhile w).length) with h0 | hpos
      · exact Or.inl h0
      · right
        rcases hleft with h0 | hws
        · omega
        · have hi : s - 1 = (l.takeWhile w).length + (s - (l.takeWhile w).length - 1) := by
            omega
          rw [hi, wordAt_dropWhile w l] at hws
          exact hws
    · have hi : e = (l.takeWhile w).length + (e - (l.takeWhile w).length) := by
        omega
      rw [hi, wordAt_dropWhile w l] at hright
      exact hright

/-- A maximal run of the rest of the document after the word-character
prefix lifts to a maximal run of the whole document. -/
theorem run_lift (w : Char → Bool) (l : List Char) (t f : Nat)
    (h : maximalRunB w (l.dropWhile w) t f = true) :
    maximalRunB w l ((l.takeWhile w).length + t) ((l.takeWhile w).length + f) = true := by
  rcases (maximalRun_iff w (l.dropWhile w) t f).mp h with
    ⟨hse, hel, hall, hleft, hright⟩
  have hlen := length_takeWhile_add_dropWhile w l
  have ht0 : t ≠ 0 := by
    intro h0
    subst h0
    have hw := hall 0 (le_refl 0) hse
    rw [wordAt_dropWhile_zero w l] at hw
    exact Bool.false_ne_true hw
  rw [maximalRun_iff]
  refine ⟨by omega, by omega, ?_, ?_, ?_⟩
  · intro j hj1 hj2
    have hj : j = (l.takeWhile w).length + (j - (l.takeWhile w).length) := by omega
    rw [hj, wordAt_dropWhile w l]
    exact hall _ (by omega) (by omega)
  · right
    have hi : (l.takeWhile w).length + t - 1 = (l.takeWhile w).length + (t - 1) := by
      omega
    rw [hi, wordAt_dropWhile w l]
    rcases hleft with h0 | hws
    · omega
    · exact hws
  · rw [wordAt_dropWhile w l]
    exact hright

/-! ## Fidelity of the scan -/

/-- The spans produced by the scan from position `i` are exactly the
maximal runs of the scanned input, shifted by `i`. -/
theorem scanAux_none_mem (w : Char → Bool) :
    ∀ (l : List Char) (i : Nat) (p : Nat × Nat),
      p ∈ scanAux w i none l ↔
        ∃ s e, p = (i + s, i + e) ∧ maximalRunB w l s e = true := by
  suffices H : ∀ (n : Nat) (l : List Char), l.length ≤ n →
      ∀ (i : Nat) (p : Nat × Nat),
        p ∈ scanAux w i none l ↔
          ∃ s e, p = (i + s, i + e) ∧ maximalRunB w l s e = true by
    exact fun l => H l.length l (le_refl _)
  intro n
  induction n with
  | zero =>
    intro l hl i p
    have hnil : l = [] := by
      cases l with
      | nil => rfl
      | cons c cs => simp at hl
    subst hnil
    rw [scanAux_none_nil]
    simp [maximalRunB_nil]
  | succ n ihn =>
    intro l hl i p
    match l with
    | [] =>
      rw [scanAux_none_nil]
      simp [maximalRunB_nil]
    | c :: cs =>
      by_cases hc : w c
      · rw [scanAux_none_word w i c cs hc]
        have hk1 : 0 < ((c :: cs).takeWhile w).length := by
          rw [List.takeWhile_cons_of_pos hc]
          simp
        have hdrop : ((c :: cs).dropWhile w).length ≤ n := by
          have := length_takeWhile_add_dropWhile w (c :: cs)
          simp at hl
          simp at this
          omega
        rw [List.mem_cons,
          ihn ((c :: cs).dropWhile w) hdrop (i + ((c :: cs).takeWhile w).length) p]
        constructor
        · rintro (rfl | ⟨s, e, rfl, hrun⟩)
          · exact ⟨0, ((c :: cs).takeWhile w).length, by simp,
              run_zero_takeWhile w (c :: cs) hk1⟩
          · refine ⟨((c :: cs).takeWhile w).length + s,
              ((c :: cs).takeWhile w).length + e, ?_,
              run_lift w (c :: cs) s e hrun⟩
            simp only [Prod.mk.injEq]
            omega
        · rintro ⟨s, e, rfl, hrun⟩
          rcases run_split w (c :: cs) s e hrun with ⟨rfl, rfl⟩ | ⟨t, f, rfl, rfl, hrun'⟩
          · left
            simp
          · right
            refine ⟨t, f, ?_, hrun'⟩
            simp only [Prod.mk.injEq]
            omega
      · have hc' : w c = false := by simpa using hc
        rw [scanAux_none_cons_neg w i c cs hc',
          ihn cs (by simp at hl; omega) (i + 1) p]
        constructor
        · rintro ⟨s, e, rfl, hrun⟩
          refine ⟨s + 1, e + 1, ?_,
            (run_cons_neg w c cs (s + 1) (e + 1) hc').mpr ⟨s, e, rfl, rfl, hrun⟩⟩
          simp only [Prod.mk.injEq]
          omega
        · rintro ⟨s, e, hp, hrun⟩
          rcases (run_cons_neg w c cs s e hc').mp hrun with ⟨t, f, rfl, rfl, hrun'⟩
          refine ⟨t, f, ?_, hrun'⟩
          rw [hp]
          simp only [Prod.mk.injEq]
          omega

/-! ## The classification loop -/

theorem classify_cons_pos (d : Nat → Category) (idx a b : Nat)
    (rest : List (Nat × Nat)) (h : d idx = Category.Q ∨ d idx = Category.A) :
    classifySpans d idx ((a, b) :: rest) =
      (a, b, d idx) :: classifySpans d (idx + 1) rest := by
  simp only [classifySpans]
  rw [if_pos h]

theorem classify_cons_neg (d : Nat → Category) (idx a b : Nat)
    (rest : List (Nat × Nat)) (h : ¬(d idx = Category.Q ∨ d idx = Category.A)) :
    classifySpans d idx ((a, b) :: rest) = classifySpans d (idx + 1) rest := by
  simp only [classifySpans]
  rw [if_neg h]

/-- Membership characterisation of the classification loop: a triple is
produced iff some token span has its boundaries and its draw is the
carried (non-`O`) category. -/
theorem classify_mem (d : Nat → Category) :
    ∀ (spans : List (Nat × Nat)) (idx ta tb : Nat) (tc : Category),
      (ta, tb, tc) ∈ classifySpans d idx spans ↔
        ∃ j, spans[j]? = some (ta, tb) ∧ d (idx + j) = tc ∧
          (tc = Category.Q ∨ tc = Category.A) := by
  intro spans
  induction spans with
  | nil =>
    intro idx ta tb tc
    simp [classifySpans]
  | cons p rest ih =>
    obtain ⟨a, b⟩ := p
    intro idx ta tb tc
    by_cases hd : d idx = Category.Q ∨ d idx = Category.A
    · rw [classify_cons_pos d idx a b rest hd, List.mem_cons, ih (idx + 1) ta tb tc]
      constructor
      · rintro (ht | ⟨j, hj, hdj, hqa⟩)
        · simp only [Prod.mk.injEq] at ht
          obtain ⟨rfl, rfl, rfl⟩ := ht
          exact ⟨0, by simp [List.getElem?_cons_zero], by simp, hd⟩
        · refine ⟨j + 1, by simpa using hj, ?_, hqa⟩
          rw [show idx + (j + 1) = idx + 1 + j from by omega]
          exact hdj
      · rintro ⟨j, hj, hdj, hqa⟩
        match j with
        | 0 =>
          left
          rw [List.getElem?_cons_zero] at hj
          injection hj with hj'
          simp only [Prod.mk.injEq] at hj'
          obtain ⟨rfl, rfl⟩ := hj'
          simp only [Nat.add_zero] at hdj
          rw [← hdj]
        | j + 1 =>
          right
          refine ⟨j, by simpa using hj, ?_, hqa⟩
          rw [show idx + 1 + j = idx + (j + 1) from by omega]
          exact hdj
    · rw [classify_cons_neg d idx a b rest hd, ih (idx + 1) ta tb tc]
      constructor
      · rintro ⟨j, hj, hdj, hqa⟩
        refine ⟨j + 1, by simpa using hj, ?_, hqa⟩
        rw [show idx + (j + 1) = idx + 1 + j from by omega]
        exact hdj
      · rintro ⟨j, hj, hdj, hqa⟩
        match j with
        | 0 =>
          exfalso
          simp only [Nat.add_zero] at hdj
          apply hd
          rw [hdj]
          exact hqa
        | j + 1 =>
          refine ⟨j, by simpa using hj, ?_, hqa⟩
          rw [show idx + 1 + j = idx + (j + 1) from by omega]
          exact hdj

/-- The boundaries of the produced triples form a subsequence of the
token spans. -/
theorem classify_sublist (d : Nat → Category) :
    ∀ (spans : List (Nat × Nat)) (idx : Nat),
      ((classifySpans d idx spans).map
        (fun t : Nat × Nat × Category => (t.1, t.2.1))).Sublist spans := by
  intro spans
  induction spans with
  | nil =>
    intro idx
    simp [classifySpans]
  | cons p rest ih =>
    obtain ⟨a, b⟩ := p
    intro idx
    by_cases hd : d idx = Category.Q ∨ d idx = Category.A
    · rw [classify_cons_pos d idx a b rest hd]
      simp only [List.map_cons]
      exact List.Sublist.cons₂ (a, b) (ih (idx + 1))
    · rw [classify_cons_neg d idx a b rest hd]
      exact List.Sublist.cons (a, b) (ih (idx + 1))

/-- The classification loop only reads the draw stream, pointwise. -/
theorem classify_congr (d₁ d₂ : Nat → Category) (h : ∀ n, d₁ n = d₂ n) :
    ∀ (spans : List (Nat × Nat)) (idx : Nat),
      classifySpans d₁ idx spans = classifySpans d₂ idx spans := by
  intro spans
  induction spans with
  | nil =>
    intro idx
    simp [classifySpans]
  | cons p rest ih =>
    obtain ⟨a, b⟩ := p
    intro idx
    by_cases hd : d₁ idx = Category.Q ∨ d₁ idx = Category.A
    · rw [classify_cons_pos d₁ idx a b rest hd,
        classify_cons_pos d₂ idx a b rest (by rw [← h idx]; exact hd),
        ih (idx + 1), h idx]
    · rw [classify_cons_neg d₁ idx a b rest hd,
        classify_cons_neg d₂ idx a b rest (by rw [← h idx]; exact hd),
        ih (idx + 1)]

theorem outcome_cons_succ (d : Nat → Category) (p : Nat × Nat)
    (spans : List (Nat × Nat)) (j : Nat) :
    outcome d (p :: spans) (j + 1) = outcome (fun n => d (n + 1)) spans j := by
  unfold outcome
  rw [List.getElem?_cons_succ]

/-- The classification loop is the per-index aggregation of the
independent per-span outcomes. -/
theorem classify_eq_filterMap (d : Nat → Category) :
    ∀ (spans : List (Nat × Nat)) (k : Nat),
      classifySpans d k spans =
        (List.range spans.length).filterMap
          (fun j => outcome (fun n => d (k + n)) spans j) := by
  intro spans
  induction spans with
  | nil =>
    intro k
    simp [classifySpans]
  | cons p rest ih =>
    obtain ⟨a, b⟩ := p
    intro k
    have htail : (List.filterMap
          ((fun j => outcome (fun n => d (k + n)) ((a, b) :: rest) j) ∘ Nat.succ)
          (List.range rest.length)) =
        (List.range rest.length).filterMap
          (fun j => outcome (fun n => d (k + 1 + n)) rest j) := by
      congr 1
      funext j
      show outcome (fun n => d (k + n)) ((a, b) :: rest) (j + 1) =
        outcome (fun n => d (k + 1 + n)) rest j
      rw [outcome_cons_succ]
      congr 1
      funext n
      show d (k + (n + 1)) = d (k + 1 + n)
      rw [show k + (n + 1) = k + 1 + n from by omega]
    by_cases hd : d k = Category.Q ∨ d k = Category.A
    · have h0 : outcome (fun n => d (k + n)) ((a, b) :: rest) 0 =
          some (a, b, d k) := by
        simp [outcome, hd]
      rw [classify_cons_pos d k a b rest hd, List.length_cons,
        List.range_succ_eq_map, List.filterMap_cons_some h0,
        List.filterMap_map, htail, ih (k + 1)]
    · have h0 : outcome (fun n => d (k + n)) ((a, b) :: rest) 0 = none := by
        simp [outcome, hd]
      rw [classify_cons_neg d k a b rest hd, List.length_cons,
        List.range_succ_eq_map, List.filterMap_cons_none h0,
        List.filterMap_map, htail, ih (k + 1)]

/-! ## The claims -/

/-- C1.  Tokenizer fidelity: for every document, the `(start, end)` pairs
produced by the tokenizer (the regex scan for `\w+`) are exactly the
maximal contiguous runs of word characters of the document — no run is
split or merged, and no produced span contains a non-word character. -/
theorem tokenizer_fidelity (w : Char → Bool) (text : List Char) (s e : Nat) :
    (s, e) ∈ tokenize w text ↔ maximalRunB w text s e = true := by
  rw [tokenize, scanAux_none_mem w text 0 (s, e)]
  constructor
  · rintro ⟨t, f, hp, hrun⟩
    simp only [Nat.zero_add, Prod.mk.injEq] at hp
    obtain ⟨rfl, rfl⟩ := hp
    exact hrun
  · intro h
    exact ⟨s, e, by simp, h⟩

/-- C2.  Decision rule and output shape: a triple `(a, b, c)` is yielded
by `predict` iff some token span has boundaries `(a, b)` and its one draw
from the three-element category set is exactly `c`, with `c` being `Q`
or `A` (never `O`). -/
theorem predict_decision_rule (w : Char → Bool) (d : Nat → Category)
    (text : List Char) (a b : Nat) (c : Category) :
    (a, b, c) ∈ predict w d text ↔
      ∃ idx, (tokenize w text)[idx]? = some (a, b) ∧ d idx = c ∧
        (c = Category.Q ∨ c = Category.A) := by
  rw [predict, classify_mem d (tokenize w text) 0 a b c]
  simp only [Nat.zero_add]

/-- C3, as stated, is false: the document `"Is sky blue? Yes."` does
tokenize to the four spans `(0,2), (3,6), (7,11), (13,16)` covering
`"Is"`, `"sky"`, `"blue"`, `"Yes"`, but with Question drawn for token 1,
Answer for token 3 and Other for tokens 2 and 4, the span carrying the
Answer is token 3 — `"blue"` at `(7, 11)` — not `(13, 16)`, which is the
span of token 4 `"Yes"`, a token the scenario drops as Other. -/
theorem concrete_scenario_counterexample :
    tokenize isWordChar sampleDoc = [(0, 2), (3, 6), (7, 11), (13, 16)] ∧
      ¬ predict isWordChar sampleDraws sampleDoc =
          [(0, 2, Category.Q), (13, 16, Category.A)] := by
  exact ⟨by decide, by decide⟩

/-- C3, amended: the document `"Is sky blue? Yes."` tokenizes to exactly
the four spans covering `"Is"`, `"sky"`, `"blue"`, `"Yes"`, and with the
draws fixed to Question for token 1, Answer for token 3 and Other for
tokens 2 and 4, `predict` yields exactly
`[(0, 2, "Q"), (7, 11, "A")]` — the Answer span being token 3,
`"blue"`. -/
theorem concrete_scenario_amended :
    tokenize isWordChar sampleDoc = [(0, 2), (3, 6), (7, 11), (13, 16)] ∧
      predict isWordChar sampleDraws sampleDoc =
        [(0, 2, Category.Q), (7, 11, Category.A)] := by
  exact ⟨by decide, by decide⟩

/-- C4.  Classifier subsequence law: the ordered list of `(start, end)`
positions of the triples yielded by `predict` is a subsequence of the
tokenizer's span list — no invented spans, no reordering. -/
theorem predict_subsequence (w : Char → Bool) (d : Nat → Category)
    (text : List Char) :
    ((predict w d text).map
      (fun t : Nat × Nat × Category => (t.1, t.2.1))).Sublist (tokenize w text) := by
  rw [predict]
  exact classify_sublist d (tokenize w text) 0

/-- C5.  Coverage bounds: every yielded triple `(start, end, category)`
satisfies `0 ≤ start`, `start < end` and `end ≤ length (document)`. -/
theorem predict_coverage (w : Char → Bool) (d : Nat → Category)
    (text : List Char) :
    ∀ t ∈ predict w d text, 0 ≤ t.1 ∧ t.1 < t.2.1 ∧ t.2.1 ≤ text.length := by
  intro t ht
  have hsub := classify_sublist d (tokenize w text) 0
  have hmem : (t.1, t.2.1) ∈ tokenize w text :=
    hsub.subset (List.mem_map_of_mem _ ht)
  have h := scanAux_bounds w text 0 none (by intro s hs; cases hs) (t.1, t.2.1) hmem
  simp at h
  exact ⟨Nat.zero_le _, h.1, h.2⟩

/-- C6.  Tokenizer span ordering: the tokenizer output is a finite
sequence of length at most the document length, whose spans are strictly
increasing, pairwise non-overlapping and nonempty. -/
theorem tokenize_spans_wf (w : Char → Bool) (text : List Char) :
    (tokenize w text).length ≤ text.length ∧
      List.Pairwise (fun p q : Nat × Nat => p.2 ≤ q.1 ∧ p.1 < q.1)
        (tokenize w text) ∧
      ∀ p ∈ tokenize w text, p.1 < p.2 ∧ p.2 ≤ text.length := by
  have hb : ∀ p ∈ tokenize w text, p.1 < p.2 ∧ p.2 ≤ text.length := by
    intro p hp
    have h := scanAux_bounds w text 0 none (by intro s hs; cases hs) p hp
    simp at h
    exact h
  refine ⟨?_, ?_, hb⟩
  · have h := scanAux_length w text 0 none
    simpa [tokenize] using h
  · have hpw := scanAux_pairwise w text 0 none (by intro s hs; cases hs)
    refine List.Pairwise.imp_of_mem ?_ hpw
    intro p q hp hq hle
    have h1 := hb p hp
    exact ⟨hle, by omega⟩

/-- C7.  Empty-input behaviour: on the empty document, and on every
document containing no word characters, `predict` yields the empty
sequence, whatever the state of the random source. -/
theorem predict_no_word (w : Char → Bool) (d : Nat → Category)
    (text : List Char) (h : ∀ c ∈ text, w c = false) :
    predict w d text = [] := by
  rw [predict, tokenize, scanAux_all_neg w text h 0]
  simp [classifySpans]

/-- C8.  Determinism under fixed randomness: two runs of `predict` over
the same document with random sources producing the same sequence of
draws yield identical output. -/
theorem predict_deterministic (w : Char → Bool) (d₁ d₂ : Nat → Category)
    (text : List Char) (h : ∀ n, d₁ n = d₂ n) :
    predict w d₁ text = predict w d₂ text := by
  rw [predict, predict]
  exact classify_congr d₁ d₂ h (tokenize w text) 0

/-- C9.  Per-span independence: `predict` is the aggregation of the
per-token outcomes, and the outcome of the `i`-th token span is a
function of the `i`-th draw only — streams agreeing at `i` give the same
`i`-th outcome, whatever their other draws. -/
theorem predict_per_span_independence (w : Char → Bool)
    (d₁ d₂ : Nat → Category) (text : List Char) (i : Nat)
    (h : d₁ i = d₂ i) :
    outcome d₁ (tokenize w text) i = outcome d₂ (tokenize w text) i ∧
      predict w d₁ text =
        (List.range (tokenize w text).length).filterMap
          (outcome d₁ (tokenize w text)) := by
  constructor
  · unfold outcome
    cases (tokenize w text)[i]? with
    | none => rfl
    | some q =>
      obtain ⟨a, b⟩ := q
      rw [h]
  · have hfun : (fun n => d₁ (0 + n)) = d₁ := by
      funext n
      rw [Nat.zero_add]
    rw [predict, classify_eq_filterMap d₁ (tokenize w text) 0, hfun]

/-- C10.  Emitted-span disjointness: the triples yielded by `predict`
are pairwise disjoint and appear in strictly increasing positional
order, each with a nonempty span. -/
theorem predict_disjoint (w : Char → Bool) (d : Nat → Category)
    (text : List Char) :
    List.Pairwise
      (fun t u : Nat × Nat × Category => t.2.1 ≤ u.1 ∧ t.1 < u.1)
      (predict w d text) ∧
    ∀ t ∈ predict w d text, t.1 < t.2.1 := by
  have hsub := classify_sublist d (tokenize w text) 0
  have hb : ∀ p ∈ tokenize w text, p.1 < p.2 ∧ p.2 ≤ text.length := by
    intro p hp
    have h := scanAux_bounds w text 0 none (by intro s hs; cases hs) p hp
    simp at h
    exact h
  have hpw := scanAux_pairwise w text 0 none (by intro s hs; cases hs)
  have hpw' : List.Pairwise (fun p q : Nat × Nat => p.2 ≤ q.1 ∧ p.1 < q.1)
      (tokenize w text) := by
    refine List.Pairwise.imp_of_mem ?_ hpw
    intro p q hp hq hle
    have h1 := hb p hp
    exact ⟨hle, by omega⟩
  have hmap := List.Pairwise.sublist hsub hpw'
  rw [List.pairwise_map] at hmap
  constructor
  · refine hmap.imp ?_
    intro a b hab
    exact hab
  · intro t ht
    have hmem : (t.1, t.2.1) ∈ tokenize w text :=
      hsub.subset (List.mem_map_of_mem _ ht)
    exact (hb _ hmem).1

/-! ## Witnesses -/

theorem predict_coverage_witness :
    (0, 2, Category.Q) ∈ predict isWordChar sampleDraws sampleDoc ∧
      (0 ≤ 0 ∧ 0 < 2 ∧ 2 ≤ sampleDoc.length) :=
  ⟨by decide,
    predict_coverage isWordChar sampleDraws sampleDoc (0, 2, Category.Q)
      (by decide)⟩

theorem predict_no_word_witness :
    (∀ c ∈ (" .?!").toList, isWordChar c = false) ∧
      predict isWordChar (fun _ => Category.O) (" .?!").toList = [] :=
  ⟨by decide,
    predict_no_word isWordChar (fun _ => Category.O) (" .?!").toList
      (by decide)⟩

theorem predict_deterministic_witness :
    (∀ n : Nat, (fun _ : Nat => Category.Q) n =
        (fun m : Nat => if 0 < m then Category.Q else Category.Q) n) ∧
      predict isWordChar (fun _ => Category.Q) sampleDoc =
        predict isWordChar
          (fun m => if 0 < m then Category.Q else Category.Q) sampleDoc :=
  ⟨fun n => by simp,
    predict_deterministic isWordChar (fun _ => Category.Q)
      (fun m => if 0 < m then Category.Q else Category.Q) sampleDoc
      (fun n => by simp)⟩

theorem predict_per_span_independence_witness :
    ((fun _ : Nat => Category.Q) 0 =
        (fun m : Nat => if m = 0 then Category.Q else Category.O) 0) ∧
      (outcome (fun _ => Category.Q) (tokenize isWordChar sampleDoc) 0 =
          outcome (fun m => if m = 0 then Category.Q else Category.O)
            (tokenize isWordChar sampleDoc) 0 ∧
        predict isWordChar (fun _ => Category.Q) sampleDoc =
          (List.range (tokenize isWordChar sampleDoc).length).filterMap
            (outcome (fun _ => Category.Q) (tokenize isWordChar sampleDoc))) :=
  ⟨by decide,
    predict_per_span_independence isWordChar (fun _ => Category.Q)
      (fun m => if m = 0 then Category.Q else Category.O) sampleDoc 0
      (by decide)⟩

theorem tokenize_spans_wf_witness :
    (3, 6) ∈ tokenize isWordChar sampleDoc ∧ (3 < 6 ∧ 6 ≤ sampleDoc.length) :=
  ⟨by decide,
    (tokenize_spans_wf isWordChar sampleDoc).2.2 (3, 6) (by decide)⟩

theorem predict_disjoint_witness :
    (7, 11, Category.A) ∈ predict isWordChar sampleDraws sampleDoc ∧
      7 < 11 :=
  ⟨by decide,
    (predict_disjoint isWordChar sampleDraws sampleDoc).2 (7, 11, Category.A)
      (by decide)⟩

end HarmonyParsing
